import Mathlib

/-!
A verification development for the `constparser` repository (`src/cp.cpp`).

The program reads assignment statements `name = expr ;` from stdin, parses each
expression with a precedence-climbing recursive-descent parser, evaluates the
tree against a mutable variable table, stores the result and prints `val=<n>`.

Embedding conventions:
* The C++ `double` is modelled by `FP`: an exact rational together with the two
  infinities and NaN.  Every numeric literal in this program is an integer and
  every arithmetic step exercised by the claims stays on exactly representable
  values, where IEEE-754 double arithmetic is exact, so on this domain the
  model agrees with the C++ `double` arithmetic (including `1/0 = +inf`).
* `std::cin` is a `List Char`; `std::cin.get()` is head/tail, `putback` is
  simply not consuming the terminating character.  `isalpha`/`isdigit`/
  `isspace` are the ASCII/"C" locale classifiers.
* Everything the program prints is collected in order into a `List OutLine`:
  diagnostics as `OutLine.diag` and each `val=<n>` line as `OutLine.val n`.
* The globals `vars`, `curToken`/`curValid` and the input stream form the
  state `St`; `verbose` is passed as an explicit parameter.
* The loops in `GetNextToken` consume input and are structural; the parser
  loops (`ParseRhs`, `Parse`) rely on token consumption for termination, so
  they take an explicit fuel argument and return `none` when it runs out.
  Termination (claim C10) is then the theorem that a fuel linear in the input
  length always suffices.
-/

/-- A fuel-indexed Euclid step for `natGcd` (kept structurally recursive so
that it evaluates inside the kernel and the elaborator alike). -/
def gcdAux : Nat → Nat → Nat → Nat
  | _, 0, b => b
  | 0, _ + 1, b => b
  | f + 1, a + 1, b => gcdAux f (b % (a + 1)) (a + 1)

/-- Greatest common divisor (`gcdAux` with enough fuel: each step strictly
decreases the first operand, so fuel `a` always suffices). -/
def natGcd (a b : Nat) : Nat :=
  gcdAux a a b

/-- An exact rational: numerator and positive denominator in lowest terms.
All operations below produce values in that normal form, so the derived
structural equality is exact numeric equality on every value the model
constructs. -/
structure Q where
  num : Int
  den : Nat
deriving DecidableEq, Repr

/-- Build the normal form of `n / d` (`d ≠ 0` at every call site: the sign
moves to the numerator, both are divided by their gcd). -/
def mkQ (n d : Int) : Q :=
  let n' : Int := if d < 0 then -n else n
  let ad : Nat := d.natAbs
  let g : Nat := natGcd n'.natAbs ad
  if g = 0 then { num := n', den := ad }
  else { num := n' / (g : Int), den := ad / g }

/-- The rational `n`. -/
def qInt (n : Int) : Q :=
  { num := n, den := 1 }

def qAdd (a b : Q) : Q :=
  mkQ (a.num * (b.den : Int) + b.num * (a.den : Int)) ((a.den : Int) * (b.den : Int))

def qSub (a b : Q) : Q :=
  mkQ (a.num * (b.den : Int) - b.num * (a.den : Int)) ((a.den : Int) * (b.den : Int))

def qMul (a b : Q) : Q :=
  mkQ (a.num * b.num) ((a.den : Int) * (b.den : Int))

/-- Exact division (callers guarantee `b ≠ 0`). -/
def qDiv (a b : Q) : Q :=
  mkQ (a.num * (b.den : Int)) ((a.den : Int) * b.num)

def qNeg (a : Q) : Q :=
  { num := -a.num, den := a.den }

/-- Model of the C++ `double`: exact rationals extended with the two IEEE-754
infinities and NaN.  Faithful to `double` on the exactly representable values
the runs of this program produce. -/
inductive FP where
  | fin (q : Q)
  | posInf
  | negInf
  | nan
deriving DecidableEq, Repr

/-- The double `n`, for an integer `n`. -/
def fpInt (n : Int) : FP :=
  .fin (qInt n)

/-- IEEE-754 negation on the model. -/
def fpNeg : FP → FP
  | .fin q => .fin (qNeg q)
  | .posInf => .negInf
  | .negInf => .posInf
  | .nan => .nan

/-- IEEE-754 addition on the model (exact on representable finite values). -/
def fpAdd : FP → FP → FP
  | .fin a, .fin b => .fin (qAdd a b)
  | .fin _, .posInf => .posInf
  | .posInf, .fin _ => .posInf
  | .fin _, .negInf => .negInf
  | .negInf, .fin _ => .negInf
  | .posInf, .posInf => .posInf
  | .negInf, .negInf => .negInf
  | _, _ => .nan

/-- IEEE-754 subtraction on the model. -/
def fpSub : FP → FP → FP
  | .fin a, .fin b => .fin (qSub a b)
  | .fin _, .posInf => .negInf
  | .posInf, .fin _ => .posInf
  | .fin _, .negInf => .posInf
  | .negInf, .fin _ => .negInf
  | .posInf, .negInf => .posInf
  | .negInf, .posInf => .negInf
  | _, _ => .nan

/-- IEEE-754 multiplication on the model. -/
def fpMul : FP → FP → FP
  | .fin a, .fin b => .fin (qMul a b)
  | .fin a, .posInf => if 0 < a.num then .posInf else if a.num < 0 then .negInf else .nan
  | .fin a, .negInf => if 0 < a.num then .negInf else if a.num < 0 then .posInf else .nan
  | .posInf, .fin b => if 0 < b.num then .posInf else if b.num < 0 then .negInf else .nan
  | .negInf, .fin b => if 0 < b.num then .negInf else if b.num < 0 then .posInf else .nan
  | .posInf, .posInf => .posInf
  | .negInf, .negInf => .posInf
  | .posInf, .negInf => .negInf
  | .negInf, .posInf => .negInf
  | _, _ => .nan

/-- IEEE-754 division on the model: a nonzero finite number divided by zero
gives a signed infinity, `0/0` gives NaN — exactly the "no special guard"
semantics of the C++ `/` on `double`. -/
def fpDiv : FP → FP → FP
  | .fin a, .fin b =>
    if b.num ≠ 0 then .fin (qDiv a b)
    else if 0 < a.num then .posInf
    else if a.num < 0 then .negInf
    else .nan
  | .fin _, .posInf => .fin (qInt 0)
  | .fin _, .negInf => .fin (qInt 0)
  | .posInf, .fin b => if b.num < 0 then .negInf else .posInf
  | .negInf, .fin b => if b.num < 0 then .posInf else .negInf
  | _, _ => .nan

/-- Embeds `Token::Type` (src/cp.cpp:14-28). -/
inductive TokenType where
  | Varname
  | Number
  | Plus
  | Minus
  | Mult
  | Divide
  | LParen
  | RParen
  | Equal
  | SemiColon
  | EndOfFile
  | Undefined
deriving DecidableEq, Repr

/-- The integer value of a `Token::Type` under the C++ enum numbering
(printed by `operator<<` in the unknown-operation diagnostics). -/
def ttIdx : TokenType → Nat
  | .Varname => 0
  | .Number => 1
  | .Plus => 2
  | .Minus => 3
  | .Mult => 4
  | .Divide => 5
  | .LParen => 6
  | .RParen => 7
  | .Equal => 8
  | .SemiColon => 9
  | .EndOfFile => 10
  | .Undefined => 11

/-- Embeds `class Token` (src/cp.cpp:11-36): a kind and, for Varname/Number tokens,
the source text.  The one-argument C++ constructor leaves `value` empty. -/
structure Token where
  type : TokenType
  value : String
deriving DecidableEq, Repr

/-- Embeds `Token::Precedence()` (src/cp.cpp:209-222). -/
def Token.Precedence (t : Token) : Nat :=
  match t.type with
  | .Mult | .Divide => 2
  | .Plus | .Minus => 1
  | _ => 0

/-- Embeds `Token::ToString()` (src/cp.cpp:107-136). -/
def Token.ToString (t : Token) : String :=
  match t.type with
  | .Varname => "String: \x27" ++ t.value ++ "\x27"
  | .Number => "Number: " ++ t.value
  | .Plus => "Plus"
  | .Minus => "Minus"
  | .Mult => "Mult"
  | .Divide => "Divide"
  | .LParen => "LParen"
  | .RParen => "RParen"
  | .Equal => "Equal"
  | .SemiColon => "SemiColon"
  | .EndOfFile => "EndOfFile"
  | .Undefined => "Undefined"

/-- One line of program output: a diagnostic message, or a `val=<n>` result
line (the printed number kept as an `FP`). -/
inductive OutLine where
  | diag (msg : String)
  | val (v : FP)
deriving DecidableEq, Repr

/-- Embeds `varmap` (src/cp.cpp:9): the variable table, as an association list with
the update-in-place semantics of `std::map`. -/
abbrev varmap := List (String × FP)

/-- Embeds `std::map::find` on the model. -/
def varmapFind : varmap → String → Option FP
  | [], _ => none
  | (k, v) :: rest, name => if k = name then some v else varmapFind rest name

/-- Embeds `vars[name] = value`: `std::map::operator[]` followed by assignment
(update the entry if present, insert it otherwise). -/
def varmapSet : varmap → String → FP → varmap
  | [], name, value => [(name, value)]
  | (k, v) :: rest, name, value =>
    if k = name then (k, value) :: rest else (k, v) :: varmapSet rest name value

/-- The expression tree.  The C++ spreads it over `class Value`
(src/cp.cpp:41-69) with cases Constant / Variable / Expr / UnaryExpr /
Unknown, where Expr and UnaryExpr point to a `ConstExpr` (lhs, op, rhs) and a
`ConstUnaryExpr` (op, rhs); here the pointed-to nodes are inlined. -/
inductive Value where
  | Constant (value : FP)
  | Variable (varname : String)
  | Expr (lhs : Value) (op : TokenType) (rhs : Value)
  | UnaryExpr (op : TokenType) (rhs : Value)
  | Unknown
deriving DecidableEq, Repr

/-- Embeds `FindVar` (src/cp.cpp:138-145): look a name up in the variable table,
printing `Invalid variable <name>` and yielding `0.0` when absent. -/
def FindVar (vars : varmap) (name : String) : Bool × FP × List OutLine :=
  match varmapFind vars name with
  | some v => (true, v, [])
  | none => (false, fpInt 0, [OutLine.diag ("Invalid variable " ++ name)])

/-- Embeds `Value::operator()` (src/cp.cpp:181-207) together with the node methods
`ConstExpr::Evaluate` (src/cp.cpp:163-179) and `ConstUnaryExpr::Evaluate`
(src/cp.cpp:147-161), which it dispatches to: reduce a tree to a number,
collecting the diagnostics printed along the way.  The `Unknown` case is the
C++ `assert(0)` branch, unreachable for trees the parser builds. -/
def valueApp (vars : varmap) : Value → FP × List OutLine
  | .Constant value => (value, [])
  | .Variable varname =>
    let r := FindVar vars varname
    (if r.1 then r.2.1 else fpInt 0, r.2.2)
  | .Expr lhs op rhs =>
    match op with
    | .Plus =>
      let l := valueApp vars lhs
      let r := valueApp vars rhs
      (fpAdd l.1 r.1, l.2 ++ r.2)
    | .Minus =>
      let l := valueApp vars lhs
      let r := valueApp vars rhs
      (fpSub l.1 r.1, l.2 ++ r.2)
    | .Mult =>
      let l := valueApp vars lhs
      let r := valueApp vars rhs
      (fpMul l.1 r.1, l.2 ++ r.2)
    | .Divide =>
      let l := valueApp vars lhs
      let r := valueApp vars rhs
      (fpDiv l.1 r.1, l.2 ++ r.2)
    | op => (fpInt 0, [OutLine.diag ("Unknown operation: " ++ toString (ttIdx op))])
  | .UnaryExpr op rhs =>
    match op with
    | .Plus => valueApp vars rhs
    | .Minus =>
      let r := valueApp vars rhs
      (fpNeg r.1, r.2)
    | op => (fpInt 0, [OutLine.diag ("Unknown operation: " ++ toString (ttIdx op))])
  | .Unknown => (fpInt 0, [])

/-- The "C" locale `isspace`, on ASCII input. -/
def isSpaceC (c : Char) : Bool :=
  c = ' ' || c = '\t' || c = '\n' || c = '\x0b' || c = '\x0c' || c = '\r'

/-- The "C" locale `isalpha`, on ASCII input. -/
def isAlphaC (c : Char) : Bool :=
  (65 ≤ c.toNat && c.toNat ≤ 90) || (97 ≤ c.toNat && c.toNat ≤ 122)

/-- The "C" locale `isdigit`. -/
def isDigitC (c : Char) : Bool :=
  48 ≤ c.toNat && c.toNat ≤ 57

/-- The "C" locale `isalnum`, on ASCII input. -/
def isAlnumC (c : Char) : Bool :=
  isAlphaC c || isDigitC c

/-- The numeric value of a digit run. -/
def digitsToNat (cs : List Char) : Nat :=
  cs.foldl (fun a c => a * 10 + (c.toNat - 48)) 0

/-- Embeds `GetNextToken` (src/cp.cpp:224-282): skip whitespace; a letter starts a
maximal letter/digit run (Varname), a digit a maximal digit run (Number); the
eight single-character tokens map directly; any other character is reported
(the C++ prints the integer value of the character) and skipped; end of input
yields EndOfFile.  Returns the token, the unconsumed input (the character that
terminated a run is `putback`, i.e. left unconsumed), and the diagnostics. -/
def GetNextToken : List Char → Token × List Char × List OutLine
  | [] => (Token.mk .EndOfFile "", [], [])
  | c :: cs =>
    if isSpaceC c then GetNextToken cs
    else if isAlphaC c then
      (Token.mk .Varname (String.mk (c :: cs.takeWhile isAlnumC)), cs.dropWhile isAlnumC, [])
    else if isDigitC c then
      (Token.mk .Number (String.mk (c :: cs.takeWhile isDigitC)), cs.dropWhile isDigitC, [])
    else
      match c with
      | '+' => (Token.mk .Plus "", cs, [])
      | '-' => (Token.mk .Minus "", cs, [])
      | '*' => (Token.mk .Mult "", cs, [])
      | '/' => (Token.mk .Divide "", cs, [])
      | '=' => (Token.mk .Equal "", cs, [])
      | '(' => (Token.mk .LParen "", cs, [])
      | ')' => (Token.mk .RParen "", cs, [])
      | ';' => (Token.mk .SemiColon "", cs, [])
      | _ =>
        let r := GetNextToken cs
        (r.1, r.2.1,
          OutLine.diag ("Uh? found character \x27" ++ toString c.toNat
            ++ "\x27 which doesn\x27t seem to be useful here") :: r.2.2)

/-- The program state: the unread input stream, the one-token lookahead cell
(`curToken`/`curValid`, src/cp.cpp:104-105, as an `Option`), the output
emitted so far, and the variable table `vars` (src/cp.cpp:102). -/
structure St where
  input : List Char
  cur : Option Token
  out : List OutLine
  vars : varmap
deriving DecidableEq, Repr

/-- Embeds `GetToken` (src/cp.cpp:284-292): peek the current token, pulling one from
the lexer only when the cache is invalid. -/
def GetToken (s : St) : Token × St :=
  match s.cur with
  | some t => (t, s)
  | none =>
    let r := GetNextToken s.input
    (r.1, { s with input := r.2.1, cur := some r.1, out := s.out ++ r.2.2 })

/-- Embeds `NextToken` (src/cp.cpp:294-297): invalidate the lookahead cache. -/
def NextToken (s : St) : St :=
  { s with cur := none }

/-- Embeds `ToDouble` (src/cp.cpp:299-309).  The C++ extracts a `double` via
`stringstream`; the only strings that reach it are the nonempty digit
runs of the lexer, on which extraction succeeds with the integer value.  On anything else
this model takes the failure path (diagnostic, `-1.0`), like the C++ does when
extraction fails. -/
def ToDouble (val : String) : FP × List OutLine :=
  if val.data ≠ [] ∧ val.data.all isDigitC then
    (fpInt (digitsToNat val.data), [])
  else
    (fpInt (-1), [OutLine.diag "Invalid number, replacing with -1"])

/-- Embeds `Expect` (src/cp.cpp:311-321): consume one token unconditionally; succeed
when it is the expected kind or EndOfFile, otherwise print a diagnostic and
fail.  Returns (success, the consumed token, new state). -/
def Expect (ty : TokenType) (s : St) : Bool × Token × St :=
  let r := GetToken s
  let t := r.1
  let s1 := NextToken r.2
  if t.type ≠ ty ∧ t.type ≠ .EndOfFile then
    (false, t,
      { s1 with out := s1.out ++ [OutLine.diag ("Invalid token, expected: "
          ++ (Token.mk ty "").ToString ++ " got " ++ t.ToString)] })
  else (true, t, s1)

/-- Embeds `ParseSimpleExpr` (src/cp.cpp:325-352): parse a primary.  Number →
Constant (consumed); Varname → Variable (consumed); Plus/Minus → consume and
wrap a recursively parsed primary in UnaryExpr; EndOfFile/SemiColon → a zero
Constant without consuming; anything else → "Unknown value" diagnostic and a
zero Constant without consuming.  Fuel-indexed; `none` = out of fuel. -/
def ParseSimpleExpr : Nat → St → Option (Value × St)
  | 0, _ => none
  | n + 1, s0 =>
    let r := GetToken s0
    let t := r.1
    let s1 := r.2
    match t.type with
    | .Number =>
      let s2 := NextToken s1
      let d := ToDouble t.value
      some (.Constant d.1, { s2 with out := s2.out ++ d.2 })
    | .Varname => some (.Variable t.value, NextToken s1)
    | .Plus | .Minus =>
      match ParseSimpleExpr n (NextToken s1) with
      | none => none
      | some (v2, s2) => some (.UnaryExpr t.type v2, s2)
    | .EndOfFile => some (.Constant (fpInt 0), s1)
    | .SemiColon => some (.Constant (fpInt 0), s1)
    | _ => some (.Constant (fpInt 0), { s1 with out := s1.out ++ [OutLine.diag "Unknown value"] })

/-- Embeds `ParseRhs` (src/cp.cpp:354-413): the precedence-climbing loop.  Peek a
token; SemiColon, or precedence below `prec`, returns the current lhs without
consuming.  Otherwise consume it, parse a primary as rhs, and dispatch on the
consumed token: a binary operator absorbs a strictly-higher-precedence tail
into rhs and folds `Expr lhs op rhs` as the new lhs; `=` is reported and
skipped; EndOfFile abandons the expression with the sentinel `-1`; any other
token is reported ("Error, unknown token") and skipped.  Fuel-indexed. -/
def ParseRhs (vb : Bool) : Nat → Value → Nat → St → Option (Value × St)
  | 0, _, _, _ => none
  | n + 1, lhs, prec, s0 =>
    let r := GetToken s0
    let t := r.1
    let s1 := r.2
    if t.type = .SemiColon then some (lhs, s1)
    else
      let curPrec := t.Precedence
      if curPrec < prec then some (lhs, s1)
      else
        let s2 := NextToken s1
        match ParseSimpleExpr n s2 with
        | none => none
        | some (rhs, s3) =>
          let s3 := { s3 with
            out := s3.out ++ (if vb then [OutLine.diag ("Token: " ++ t.ToString)] else []) }
          match t.type with
          | .Plus | .Minus | .Mult | .Divide =>
            let r2 := GetToken s3
            let nextPrec := r2.1.Precedence
            if curPrec < nextPrec then
              match ParseRhs vb n rhs nextPrec r2.2 with
              | none => none
              | some (rhs2, s5) => ParseRhs vb n (.Expr lhs t.type rhs2) prec s5
            else ParseRhs vb n (.Expr lhs t.type rhs) prec r2.2
          | .Equal =>
            ParseRhs vb n lhs prec
              (NextToken { s3 with out := s3.out ++ [OutLine.diag "Error: Unexpected \x27=\x27"] })
          | .EndOfFile => some (.Constant (fpInt (-1)), s3)
          | .SemiColon => some (lhs, s3)
          | _ =>
            ParseRhs vb n lhs prec
              (NextToken { s3 with out := s3.out ++ [OutLine.diag "Error, unknown token"] })

/-- Embeds `ParseExpr` (src/cp.cpp:415-423): parse a primary; if the next token is
SemiColon return it as the whole expression, otherwise enter `ParseRhs` with
minimum precedence 0. -/
def ParseExpr (vb : Bool) (n : Nat) (s : St) : Option (Value × St) :=
  match ParseSimpleExpr n s with
  | none => none
  | some (lhs, s1) =>
    let r := GetToken s1
    if r.1.type = .SemiColon then some (lhs, r.2)
    else ParseRhs vb n lhs 0 r.2

/-- Embeds `Parse` (src/cp.cpp:425-446): the statement driver.  Expect a Varname and
then an Equal (both expectations also succeed on EndOfFile); parse the
expression tree, consume the trailing token, evaluate the tree to store
`name -> value` in `vars` (src/cp.cpp:441), then evaluate it a second time
against the updated table and print that value as the `val=` line
(src/cp.cpp:442).  The do-while repeats until the name-position token was
EndOfFile.  Fuel-indexed. -/
def Parse (vb : Bool) : Nat → St → Option St
  | 0, _ => none
  | n + 1, s0 =>
    let r1 := Expect .Varname s0
    let v := r1.2.1
    let s1 := r1.2.2
    if r1.1 then
      let s1v := { s1 with out := s1.out ++ (if vb then [OutLine.diag v.ToString] else []) }
      let r2 := Expect .Equal s1v
      if r2.1 then
        match ParseExpr vb n r2.2.2 with
        | none => none
        | some (val, s3) =>
          let s4 := NextToken s3
          let e1 := valueApp s4.vars val
          let vars2 := varmapSet s4.vars v.value e1.1
          let e2 := valueApp vars2 val
          let s5 := { s4 with vars := vars2, out := s4.out ++ e1.2 ++ e2.2 ++ [OutLine.val e2.1] }
          if v.type = .EndOfFile then some s5 else Parse vb n s5
      else if v.type = .EndOfFile then some r2.2.2 else Parse vb n r2.2.2
    else if v.type = .EndOfFile then some s1 else Parse vb n s1

/-- The state `Parse` starts from: the whole input unread, no cached token, no
output, an empty variable table. -/
def initSt (input : List Char) : St :=
  { input := input, cur := none, out := [], vars := [] }

/-- Run the statement driver on an input stream (the call `Parse()` at
src/cp.cpp:483). -/
def runParse (vb : Bool) (n : Nat) (input : List Char) : Option St :=
  Parse vb n (initSt input)

/-- The argument loop of `main` (src/cp.cpp:463-481): an argument whose first
character is not `-` prints usage and exits 1 on the spot; `-v` sets verbose;
any other argument prints usage ("Invalid option") but does NOT exit, and the
loop continues.  Returns (verbose, early exit code if any, usage messages,
which the C++ sends to stderr).  `argv[i][0]` on an empty argument reads the
NUL terminator. -/
def scanArgs : List String → Bool → Bool × Option Nat × List String
  | [], vb => (vb, none, [])
  | a :: rest, vb =>
    if a.data.headD (Char.ofNat 0) ≠ '-' then (vb, some 1, ["Not an option:" ++ a])
    else if a = "-v" then scanArgs rest true
    else
      let r := scanArgs rest vb
      (r.1, r.2.1, ("Invalid option:" ++ a) :: r.2.2)

/-- The observable result of a whole process run: the exit code, the final
parser state if `Parse()` ran (it did not when an argument forced the early
`exit(1)`), and the usage text printed to stderr. -/
structure RunResult where
  exitCode : Nat
  parsed : Option St
  err : List String
deriving DecidableEq, Repr

/-- Embeds `main` (src/cp.cpp:463-484): scan the arguments; on an early exit the
process ends with that code before any parsing; otherwise run `Parse` on the
input and return 0 (control falls off the end of `main`). -/
def mainRun (args : List String) (input : List Char) (fuel : Nat) : Option RunResult :=
  match scanArgs args false with
  | (_, some code, err) => some { exitCode := code, parsed := none, err := err }
  | (vb, none, err) =>
    match Parse vb fuel (initSt input) with
    | none => none
    | some st => some { exitCode := 0, parsed := some st, err := err }

/-- The `val=` lines of an output trace, in order. -/
def valLines : List OutLine → List FP
  | [] => []
  | .val v :: rest => v :: valLines rest
  | .diag _ :: rest => valLines rest

/-- Does a tree contain a reference to the given variable? -/
def mentionsVar (name : String) : Value → Bool
  | .Constant _ => false
  | .Variable n => n = name
  | .Expr lhs _ rhs => mentionsVar name lhs || mentionsVar name rhs
  | .UnaryExpr _ rhs => mentionsVar name rhs
  | .Unknown => false

/-- The weight the termination measure assigns to the lookahead cell: an
invalid cache and a cached EndOfFile cost 1 (pulling at end of input swaps
one for the other without consuming), any other cached token costs 2 (it
still has to be consumed). -/
def curWeight : Option Token → Nat
  | none => 1
  | some t => if t.type = .EndOfFile then 1 else 2

/-- Termination measure for the parser state: cursor operations never
increase it, and consuming a non-EndOfFile token strictly decreases it. -/
def meas (s : St) : Nat :=
  2 * s.input.length + curWeight s.cur

/-! ## Helper lemmas about the variable table and the evaluator -/

theorem varmapFind_varmapSet (vars : varmap) (name k : String) (d : FP) :
    varmapFind (varmapSet vars name d) k =
      if k = name then some d else varmapFind vars k := by
  induction vars with
  | nil =>
    by_cases h : k = name
    · subst h
      simp [varmapSet, varmapFind]
    · have h' : ¬ name = k := fun hh => h hh.symm
      simp [varmapSet, varmapFind, h, h']
  | cons p rest ih =>
    obtain ⟨k', v'⟩ := p
    by_cases h1 : k' = name
    · subst h1
      by_cases h2 : k' = k
      · subst h2
        simp [varmapSet, varmapFind]
      · have h2' : ¬ k = k' := fun hh => h2 hh.symm
        simp [varmapSet, varmapFind, h2, h2']
    · by_cases h2 : k' = k
      · subst h2
        have h1' : ¬ k' = name := h1
        simp [varmapSet, varmapFind, h1']
      · have h2' : ¬ k = k' := fun hh => h2 hh.symm
        simp [varmapSet, varmapFind, h1, h2, ih]

theorem valueApp_varmapSet_of_not_mentions (vars : varmap) (name : String) (d : FP)
    (v : Value) (h : mentionsVar name v = false) :
    valueApp (varmapSet vars name d) v = valueApp vars v := by
  induction v with
  | Constant q => simp [valueApp]
  | Variable n =>
    have hn : ¬ n = name := by
      simpa [mentionsVar] using h
    simp [valueApp, FindVar, varmapFind_varmapSet, hn]
  | Expr l op r ihl ihr =>
    simp [mentionsVar] at h
    cases op <;> simp [valueApp, ihl h.1, ihr h.2]
  | UnaryExpr op r ihr =>
    simp [mentionsVar] at h
    cases op <;> simp [valueApp, ihr h]
  | Unknown => simp [valueApp]

/-! ## Claim C1 -/

/-- C1 counterexample: for input `a = a + 1 ;` (with `a` previously unset)
the driver stores 1 under `a` but prints `val=2` — the printed number is the
re-evaluation after the store, not the stored number, so the claim fails on
self-referencing assignments.  (The trailing `val=-1` line and the `""`
entry are the end-of-stream behaviour of the driver; see C2.) -/
theorem C1_counterexample :
    runParse false 50 "a = a + 1 ;".data =
      some { input := [], cur := none,
             out := [OutLine.diag "Invalid variable a", OutLine.val (fpInt 2),
                     OutLine.val (fpInt (-1))],
             vars := [("a", fpInt 1), ("", fpInt (-1))] } ∧
    fpInt 2 ≠ fpInt 1 := by
  constructor
  · decide
  · decide

/-- C1 (amended): the driver evaluates the tree once against the current
Environment to obtain the stored value, and then a second time against the
updated Environment to obtain the printed value (src/cp.cpp:441-442).  The
printed number therefore equals the stored number whenever the right-hand
side does not reference the variable being assigned — re-evaluation after
the store is unchanged — as the concrete run `a = 5 ; b = a + 2 ;` also
shows (stored a=5, b=7; printed 5 and 7). -/
theorem C1_amended_holds (vars : varmap) (name : String) (v : Value)
    (h : mentionsVar name v = false) :
    (valueApp (varmapSet vars name (valueApp vars v).1) v).1 = (valueApp vars v).1 ∧
    runParse false 50 "a = 5 ; b = a + 2 ;".data =
      some { input := [], cur := none,
             out := [OutLine.val (fpInt 5), OutLine.val (fpInt 7), OutLine.val (fpInt (-1))],
             vars := [("a", fpInt 5), ("b", fpInt 7), ("", fpInt (-1))] } := by
  constructor
  · rw [valueApp_varmapSet_of_not_mentions vars name _ v h]
  · decide

/-- Witness for C1: instantiating the amended theorem at a tree that does not
mention the assigned name. -/
theorem C1_amended_witness :
    (valueApp (varmapSet [] "a" (valueApp [] (.Constant (fpInt 5))).1)
        (.Constant (fpInt 5))).1 = (valueApp [] (.Constant (fpInt 5))).1 := by
  exact (C1_amended_holds [] "a" (.Constant (fpInt 5)) (by decide)).1

/-! ## Claim C2 -/

/-- C2 counterexample: on empty input — so EndOfStream is the very first
token the driver observes while expecting a name — the run still prints one
`val=-1` line and stores an entry (empty name, -1) before halting: `Expect`
accepts EndOfFile for any expected kind, so the whole statement body runs
once more at end of stream. -/
theorem C2_counterexample :
    runParse false 50 "".data =
      some { input := [], cur := none,
             out := [OutLine.val (fpInt (-1))],
             vars := [("", fpInt (-1))] } ∧
    valLines [OutLine.val (fpInt (-1))] ≠ [] := by
  constructor
  · decide
  · decide

/-- C2 (amended): when EndOfStream is observed while the driver is expecting
a name, both `Expect`s nevertheless succeed (EndOfFile passes any
expectation), the expression parse collapses to the sentinel -1, exactly one
further `val=-1` line is printed and one further entry `"" -> -1` is stored —
and only then does the loop halt, with success.  This holds from any driver
state whose input is exhausted and whose lookahead cache is invalid. -/
theorem C2_amended_holds (out : List OutLine) (vars : varmap) :
    Parse false 5 { input := [], cur := none, out := out, vars := vars } =
      some { input := [], cur := none,
             out := out ++ [OutLine.val (fpInt (-1))],
             vars := varmapSet vars "" (fpInt (-1)) } := by
  simp [Parse, Expect, GetToken, NextToken, GetNextToken, ParseExpr,
        ParseSimpleExpr, ParseRhs, valueApp, Token.Precedence]

/-! ## Claim C3 -/

/-- C3 counterexample: for input `a = 12x ;` the trailing `x` (a Varname
token, precedence 0) does NOT terminate expression parsing with the
left-hand side 12: at minimum precedence 0 it falls into the
default branch of `ParseRhs`, is reported ("Error, unknown token") and skipped — the skip
also consumes the `;` — and the subsequent EndOfStream collapses the
expression to the sentinel -1.  The run stores -1 (not 12) for `a`. -/
theorem C3_counterexample :
    runParse false 50 "a = 12x ;".data =
      some { input := [], cur := none,
             out := [OutLine.diag "Error, unknown token", OutLine.val (fpInt (-1)),
                     OutLine.val (fpInt (-1))],
             vars := [("a", fpInt (-1)), ("", fpInt (-1))] } ∧
    varmapFind [("a", fpInt (-1)), ("", fpInt (-1))] "a" ≠ some (fpInt 12) := by
  constructor
  · decide
  · decide

/-- C3 (amended): expression parsing returns the current left-hand side
without consuming only on a SemiColon or on a token whose precedence is
below the current minimum precedence (possible for a precedence-0 token only
when that minimum is positive).  At minimum precedence 0 a non-operator
token is instead reported and skipped, so `a = 12x ;` still completes with
no run-wide abort, but stores and prints -1 for `a`, not 12. -/
theorem C3_amended_holds (vb : Bool) (n : Nat) (lhs : Value) (prec : Nat) (s : St)
    (h : (GetToken s).1.type = .SemiColon ∨ (GetToken s).1.Precedence < prec) :
    ParseRhs vb (n + 1) lhs prec s = some (lhs, (GetToken s).2) ∧
    runParse false 50 "a = 12x ;".data =
      some { input := [], cur := none,
             out := [OutLine.diag "Error, unknown token", OutLine.val (fpInt (-1)),
                     OutLine.val (fpInt (-1))],
             vars := [("a", fpInt (-1)), ("", fpInt (-1))] } := by
  constructor
  · rcases h with h | h
    · simp [ParseRhs, h]
    · by_cases hs : (GetToken s).1.type = TokenType.SemiColon
      · simp [ParseRhs, hs]
      · simp [ParseRhs, hs, h]
  · decide

/-- Witness for C3: a state whose pending token is `;` returns the
left-hand side unchanged. -/
theorem C3_amended_witness :
    ParseRhs false 1 (.Constant (fpInt 7)) 0
        { input := [], cur := some (Token.mk .SemiColon ""), out := [], vars := [] } =
      some (.Constant (fpInt 7),
        { input := [], cur := some (Token.mk .SemiColon ""), out := [], vars := [] }) := by
  exact (C3_amended_holds false 0 (.Constant (fpInt 7)) 0
    { input := [], cur := some (Token.mk .SemiColon ""), out := [], vars := [] }
    (Or.inl (by decide))).1

/-! ## Claim C4 -/

/-- C4 counterexample: with the single unrecognized flag `-x` the program
prints the usage text but does NOT exit: parsing still runs (on empty stdin
it performs the end-of-stream statement, see C2) and the process exits 0 —
not a non-zero exit before parsing as claimed. -/
theorem C4_counterexample :
    mainRun ["-x"] [] 10 =
      some { exitCode := 0,
             parsed := some { input := [], cur := none,
                              out := [OutLine.val (fpInt (-1))],
                              vars := [("", fpInt (-1))] },
             err := ["Invalid option:-x"] } ∧
    (mainRun ["-x"] [] 10).map RunResult.exitCode = some 0 := by
  constructor
  · decide
  · decide

/-- C4 (amended): a command-line argument whose first character is not `-`
prints a usage message and exits 1 before any parsing; an argument starting
with `-` that is not `-v` prints the usage message but does not exit, so
parsing still runs and the process exits 0; with no arguments or only `-v`
the program parses to end-of-stream and exits 0. -/
theorem C4_amended_holds (a : String) (rest : List String) (vb : Bool)
    (h : a.data.headD (Char.ofNat 0) ≠ '-') :
    scanArgs (a :: rest) vb = (vb, some 1, ["Not an option:" ++ a]) ∧
    mainRun ["-x"] [] 10 =
      some { exitCode := 0,
             parsed := some { input := [], cur := none,
                              out := [OutLine.val (fpInt (-1))],
                              vars := [("", fpInt (-1))] },
             err := ["Invalid option:-x"] } ∧
    mainRun [] [] 10 =
      some { exitCode := 0,
             parsed := some { input := [], cur := none,
                              out := [OutLine.val (fpInt (-1))],
                              vars := [("", fpInt (-1))] },
             err := [] } ∧
    mainRun ["-v"] [] 10 =
      some { exitCode := 0,
             parsed := some { input := [], cur := none,
                              out := [OutLine.diag "EndOfFile",
                                      OutLine.diag "Token: EndOfFile",
                                      OutLine.val (fpInt (-1))],
                              vars := [("", fpInt (-1))] },
             err := [] } := by
  refine ⟨?_, by decide, by decide, by decide⟩
  simp only [scanArgs]
  rw [if_pos h]

/-- Witness for C4: the argument `x` (no leading dash) forces the early
usage exit with code 1. -/
theorem C4_amended_witness :
    scanArgs ["x"] false = (false, some 1, ["Not an option:" ++ "x"]) := by
  exact (C4_amended_holds "x" [] false (by decide)).1

/-! ## Claims C5-C9: concrete functional runs.  In each final state the
first `val` line is the printed result of the statement and the trailing
`val=-1` / `("", -1)` pair is the end-of-stream behaviour established at
C2. -/

/-- C5: multiplication binds tighter than addition — `a = 2 + 3 * 4 ;`
evaluates, stores and prints 14, not 20. -/
theorem C5_precedence :
    runParse false 50 "a = 2 + 3 * 4 ;".data =
      some { input := [], cur := none,
             out := [OutLine.val (fpInt 14), OutLine.val (fpInt (-1))],
             vars := [("a", fpInt 14), ("", fpInt (-1))] } ∧
    fpInt 14 ≠ fpInt 20 := by
  constructor
  · decide
  · decide

/-- C6: equal-precedence operators associate left-to-right —
`a = 10 - 3 - 2 ;` evaluates, stores and prints 5, not 9. -/
theorem C6_associativity :
    runParse false 50 "a = 10 - 3 - 2 ;".data =
      some { input := [], cur := none,
             out := [OutLine.val (fpInt 5), OutLine.val (fpInt (-1))],
             vars := [("a", fpInt 5), ("", fpInt (-1))] } ∧
    fpInt 5 ≠ fpInt 9 := by
  constructor
  · decide
  · decide

/-- C7: a leading Plus/Minus parses as a unary operator over a primary and
unary minus negates its operand (first conjunct, directly about the
evaluator); concretely `a = -5 + 2 ;` yields -3 (not -7) and `a = - - 5 ;`
yields 5. -/
theorem C7_unary :
    (∀ (vars : varmap) (r : Value),
        valueApp vars (.UnaryExpr .Minus r) =
          (fpNeg (valueApp vars r).1, (valueApp vars r).2)) ∧
    runParse false 50 "a = -5 + 2 ;".data =
      some { input := [], cur := none,
             out := [OutLine.val (fpInt (-3)), OutLine.val (fpInt (-1))],
             vars := [("a", fpInt (-3)), ("", fpInt (-1))] } ∧
    runParse false 50 "a = - - 5 ;".data =
      some { input := [], cur := none,
             out := [OutLine.val (fpInt 5), OutLine.val (fpInt (-1))],
             vars := [("a", fpInt 5), ("", fpInt (-1))] } := by
  refine ⟨fun vars r => ?_, by decide, by decide⟩
  simp [valueApp]

/-- C8: evaluating a reference to an unset variable emits a diagnostic
naming it ("Invalid variable undefinedVar") and yields 0 without failing the
evaluation: `b = undefinedVar + 1 ;` stores and prints 1.  (The diagnostic
appears twice because the driver evaluates the tree twice, once to store
and once to print.) -/
theorem C8_undefined_variable :
    runParse false 50 "b = undefinedVar + 1 ;".data =
      some { input := [], cur := none,
             out := [OutLine.diag "Invalid variable undefinedVar",
                     OutLine.diag "Invalid variable undefinedVar",
                     OutLine.val (fpInt 1), OutLine.val (fpInt (-1))],
             vars := [("b", fpInt 1), ("", fpInt (-1))] } ∧
    FindVar [] "undefinedVar" =
      (false, fpInt 0, [OutLine.diag ("Invalid variable " ++ "undefinedVar")]) := by
  constructor
  · decide
  · decide

/-- C9: division is the native IEEE-754 `double` division with no guard —
`1 / 0` is positive infinity (first conjunct, directly about the division
operation), and the run `a = 1 / 0 ;` stores and prints that infinity
rather than erroring or substituting a default. -/
theorem C9_division_infinity :
    fpDiv (fpInt 1) (fpInt 0) = FP.posInf ∧
    runParse false 50 "a = 1 / 0 ;".data =
      some { input := [], cur := none,
             out := [OutLine.val FP.posInf, OutLine.val (fpInt (-1))],
             vars := [("a", FP.posInf), ("", fpInt (-1))] } := by
  constructor
  · decide
  · decide

/-! ## Termination: the lexer consumes input, the cursor never grows the
measure, and consuming a non-EndOfFile token strictly shrinks it -/

theorem length_dropWhile_le' (p : Char → Bool) (l : List Char) :
    (l.dropWhile p).length ≤ l.length := by
  induction l with
  | nil => simp [List.dropWhile]
  | cons c cs ih =>
    by_cases h : p c
    · simp only [List.dropWhile, h]
      exact le_trans ih (Nat.le_succ _)
    · simp only [List.dropWhile, h]
      simp

theorem GetNextToken_eof (cs : List Char) :
    (GetNextToken cs).1.type = .EndOfFile → (GetNextToken cs).2.1 = [] := by
  induction cs with
  | nil => intro _; rfl
  | cons c cs ih =>
    simp only [GetNextToken]
    split_ifs
    · exact ih
    · exact fun hh => by simp at hh
    · exact fun hh => by simp at hh
    · split
      · exact fun hh => by simp at hh
      · exact fun hh => by simp at hh
      · exact fun hh => by simp at hh
      · exact fun hh => by simp at hh
      · exact fun hh => by simp at hh
      · exact fun hh => by simp at hh
      · exact fun hh => by simp at hh
      · exact fun hh => by simp at hh
      · exact ih

theorem GetNextToken_progress (cs : List Char) :
    (GetNextToken cs).1.type ≠ .EndOfFile → (GetNextToken cs).2.1.length < cs.length := by
  induction cs with
  | nil => intro hh; exact absurd rfl hh
  | cons c cs ih =>
    simp only [GetNextToken]
    split_ifs
    · exact fun hh => Nat.lt_succ_of_lt (ih hh)
    · intro hh
      show (cs.dropWhile isAlnumC).length < (c :: cs).length
      have hd := length_dropWhile_le' isAlnumC cs
      simp only [List.length_cons]
      omega
    · intro hh
      show (cs.dropWhile isDigitC).length < (c :: cs).length
      have hd := length_dropWhile_le' isDigitC cs
      simp only [List.length_cons]
      omega
    · split
      all_goals intro hh
      · simp
      · simp
      · simp
      · simp
      · simp
      · simp
      · simp
      · simp
      · exact Nat.lt_succ_of_lt (ih hh)

theorem meas_def (s : St) : meas s = 2 * s.input.length + curWeight s.cur := rfl

theorem curWeight_none : curWeight none = 1 := rfl

theorem curWeight_some (t : Token) :
    curWeight (some t) = if t.type = .EndOfFile then 1 else 2 := rfl

theorem curWeight_pos (c : Option Token) : 1 ≤ curWeight c := by
  cases c with
  | none => simp [curWeight_none]
  | some t =>
    rw [curWeight_some]
    by_cases ht : t.type = .EndOfFile <;> simp [ht]

theorem meas_pos (s : St) : 1 ≤ meas s := by
  rw [meas_def]
  have := curWeight_pos s.cur
  omega

theorem meas_out (s : St) (o : List OutLine) : meas { s with out := o } = meas s := rfl

theorem GetToken_meas (s : St) : meas (GetToken s).2 ≤ meas s := by
  cases hc : s.cur with
  | some t => simp [GetToken, hc]
  | none =>
    by_cases he : (GetNextToken s.input).1.type = .EndOfFile
    · have h0 := GetNextToken_eof s.input he
      simp [GetToken, hc, meas_def, curWeight_some, curWeight_none, h0, he]
    · have h1 := GetNextToken_progress s.input he
      simp [GetToken, hc, meas_def, curWeight_some, curWeight_none, he]
      omega

theorem NextToken_meas (s : St) : meas (NextToken s) ≤ meas s := by
  rw [meas_def, meas_def]
  have h1 : ({ s with cur := none } : St).input = s.input := rfl
  have h2 : ({ s with cur := none } : St).cur = none := rfl
  rw [NextToken, h1, h2, curWeight_none]
  have := curWeight_pos s.cur
  omega

theorem consume_meas (s : St) (h : (GetToken s).1.type ≠ .EndOfFile) :
    meas (NextToken (GetToken s).2) < meas s := by
  cases hc : s.cur with
  | some t =>
    have ht : (GetToken s).1 = t := by simp [GetToken, hc]
    have h2 : (GetToken s).2 = s := by simp [GetToken, hc]
    rw [ht] at h
    rw [h2]
    simp [NextToken, meas_def, curWeight_none, curWeight_some, hc, h]
  | none =>
    have he : (GetNextToken s.input).1.type ≠ .EndOfFile := by
      simpa [GetToken, hc] using h
    have h1 := GetNextToken_progress s.input he
    simp [GetToken, NextToken, meas_def, curWeight_none, curWeight_some, hc, he]
    omega

theorem ParseSimpleExpr_total :
    ∀ (m : Nat) (s : St), meas s ≤ m → ∀ n, meas s < n →
      ∃ v s2, ParseSimpleExpr n s = some (v, s2) ∧ meas s2 ≤ meas s := by
  intro m
  induction m with
  | zero =>
    intro s hs n hn
    have := meas_pos s
    exact absurd hs (by omega)
  | succ m ih =>
    intro s hs n hn
    obtain ⟨k, rfl⟩ : ∃ k, n = k + 1 := ⟨n - 1, by have := meas_pos s; omega⟩
    cases ht : (GetToken s).1.type with
    | Varname =>
      simp only [ParseSimpleExpr, ht]
      exact ⟨_, _, rfl, le_of_lt (consume_meas s (by simp [ht]))⟩
    | Number =>
      simp only [ParseSimpleExpr, ht]
      exact ⟨_, _, rfl,
        le_trans (le_of_eq (meas_out _ _)) (le_of_lt (consume_meas s (by simp [ht])))⟩
    | Plus =>
      have hcm := consume_meas s (by simp [ht])
      obtain ⟨v2, s3, he2, hle3⟩ := ih (NextToken (GetToken s).2) (by omega) k (by omega)
      simp only [ParseSimpleExpr, ht, he2]
      exact ⟨_, _, rfl, le_trans hle3 (le_of_lt hcm)⟩
    | Minus =>
      have hcm := consume_meas s (by simp [ht])
      obtain ⟨v2, s3, he2, hle3⟩ := ih (NextToken (GetToken s).2) (by omega) k (by omega)
      simp only [ParseSimpleExpr, ht, he2]
      exact ⟨_, _, rfl, le_trans hle3 (le_of_lt hcm)⟩
    | Mult =>
      simp only [ParseSimpleExpr, ht]
      exact ⟨_, _, rfl, le_trans (le_of_eq (meas_out _ _)) (GetToken_meas s)⟩
    | Divide =>
      simp only [ParseSimpleExpr, ht]
      exact ⟨_, _, rfl, le_trans (le_of_eq (meas_out _ _)) (GetToken_meas s)⟩
    | LParen =>
      simp only [ParseSimpleExpr, ht]
      exact ⟨_, _, rfl, le_trans (le_of_eq (meas_out _ _)) (GetToken_meas s)⟩
    | RParen =>
      simp only [ParseSimpleExpr, ht]
      exact ⟨_, _, rfl, le_trans (le_of_eq (meas_out _ _)) (GetToken_meas s)⟩
    | Equal =>
      simp only [ParseSimpleExpr, ht]
      exact ⟨_, _, rfl, le_trans (le_of_eq (meas_out _ _)) (GetToken_meas s)⟩
    | SemiColon =>
      simp only [ParseSimpleExpr, ht]
      exact ⟨_, _, rfl, GetToken_meas s⟩
    | EndOfFile =>
      simp only [ParseSimpleExpr, ht]
      exact ⟨_, _, rfl, GetToken_meas s⟩
    | Undefined =>
      simp only [ParseSimpleExpr, ht]
      exact ⟨_, _, rfl, le_trans (le_of_eq (meas_out _ _)) (GetToken_meas s)⟩

theorem ParseRhs_total :
    ∀ (m : Nat) (s : St), meas s ≤ m →
      ∀ (vb : Bool) (lhs : Value) (prec n : Nat), meas s + 2 ≤ n →
      ∃ v s2, ParseRhs vb n lhs prec s = some (v, s2) ∧ meas s2 ≤ meas s := by
  intro m
  induction m with
  | zero =>
    intro s hs vb lhs prec n hn
    have := meas_pos s
    exact absurd hs (by omega)
  | succ m ih =>
    intro s hs vb lhs prec n hn
    have hpos := meas_pos s
    obtain ⟨k, rfl⟩ : ∃ k, n = k + 1 := ⟨n - 1, by omega⟩
    by_cases hsem : (GetToken s).1.type = .SemiColon
    · simp only [ParseRhs, hsem, eq_self_iff_true, if_true]
      exact ⟨_, _, rfl, GetToken_meas s⟩
    · by_cases hp : (GetToken s).1.Precedence < prec
      · simp only [ParseRhs, hsem, hp, eq_self_iff_true, if_true, if_false, iff_true]
        exact ⟨_, _, rfl, GetToken_meas s⟩
      · have hms2 : meas (NextToken (GetToken s).2) ≤ meas s :=
          le_trans (NextToken_meas _) (GetToken_meas s)
        obtain ⟨rhs, s3, he1, hle3⟩ :=
          ParseSimpleExpr_total (meas (NextToken (GetToken s).2)) _ le_rfl k (by omega)
        have hms3 : meas s3 ≤ meas s := le_trans hle3 hms2
        have hgen : meas s3 < meas s → ∀ (lhs' : Value) (z : St), meas z ≤ meas s3 →
            ∃ v s2, ParseRhs vb k lhs' prec z = some (v, s2) ∧ meas s2 ≤ meas s := by
          intro hlt3 lhs' z hz
          obtain ⟨v6, s6, he3, hle6⟩ := ih z (by omega) vb lhs' prec k (by omega)
          exact ⟨v6, s6, he3, le_trans hle6 (le_trans hz (le_of_lt hlt3))⟩
        cases ht : (GetToken s).1.type with
        | SemiColon => exact absurd ht hsem
        | EndOfFile =>
          simp only [ParseRhs, hsem, hp, he1, ht, if_false]
          exact ⟨_, _, rfl, hms3⟩
        | Plus =>
          have hlt3 : meas s3 < meas s := lt_of_le_of_lt hle3 (consume_meas s (by simp [ht]))
          rcases hr2 : GetToken { s3 with out := s3.out ++
              (if vb then [OutLine.diag ("Token: " ++ (GetToken s).1.ToString)] else []) }
            with ⟨t2, s4⟩
          have hms4 : meas s4 < meas s := by
            have hh : meas s4 ≤ meas s3 := by
              have h2 := GetToken_meas { s3 with out := s3.out ++
                (if vb then [OutLine.diag ("Token: " ++ (GetToken s).1.ToString)] else []) }
              rw [hr2] at h2
              exact h2
            omega
          by_cases hcp : (GetToken s).1.Precedence < t2.Precedence
          · obtain ⟨v5, s5, he2, hle5⟩ := ih s4 (by omega) vb rhs t2.Precedence k (by omega)
            obtain ⟨v6, s6, he3, hle6⟩ :=
              ih s5 (by omega) vb (.Expr lhs .Plus v5) prec k (by omega)
            simp only [ParseRhs, hsem, hp, he1, ht, hr2, hcp, he2, he3, if_false, if_true]
            exact ⟨_, _, rfl, le_trans hle6 (le_trans hle5 (le_of_lt hms4))⟩
          · obtain ⟨v6, s6, he3, hle6⟩ :=
              ih s4 (by omega) vb (.Expr lhs .Plus rhs) prec k (by omega)
            simp only [ParseRhs, hsem, hp, he1, ht, hr2, hcp, he3, if_false]
            exact ⟨_, _, rfl, le_trans hle6 (le_of_lt hms4)⟩
        | Minus =>
          have hlt3 : meas s3 < meas s := lt_of_le_of_lt hle3 (consume_meas s (by simp [ht]))
          rcases hr2 : GetToken { s3 with out := s3.out ++
              (if vb then [OutLine.diag ("Token: " ++ (GetToken s).1.ToString)] else []) }
            with ⟨t2, s4⟩
          have hms4 : meas s4 < meas s := by
            have hh : meas s4 ≤ meas s3 := by
              have h2 := GetToken_meas { s3 with out := s3.out ++
                (if vb then [OutLine.diag ("Token: " ++ (GetToken s).1.ToString)] else []) }
              rw [hr2] at h2
              exact h2
            omega
          by_cases hcp : (GetToken s).1.Precedence < t2.Precedence
          · obtain ⟨v5, s5, he2, hle5⟩ := ih s4 (by omega) vb rhs t2.Precedence k (by omega)
            obtain ⟨v6, s6, he3, hle6⟩ :=
              ih s5 (by omega) vb (.Expr lhs .Minus v5) prec k (by omega)
            simp only [ParseRhs, hsem, hp, he1, ht, hr2, hcp, he2, he3, if_false, if_true]
            exact ⟨_, _, rfl, le_trans hle6 (le_trans hle5 (le_of_lt hms4))⟩
          · obtain ⟨v6, s6, he3, hle6⟩ :=
              ih s4 (by omega) vb (.Expr lhs .Minus rhs) prec k (by omega)
            simp only [ParseRhs, hsem, hp, he1, ht, hr2, hcp, he3, if_false]
            exact ⟨_, _, rfl, le_trans hle6 (le_of_lt hms4)⟩
        | Mult =>
          have hlt3 : meas s3 < meas s := lt_of_le_of_lt hle3 (consume_meas s (by simp [ht]))
          rcases hr2 : GetToken { s3 with out := s3.out ++
              (if vb then [OutLine.diag ("Token: " ++ (GetToken s).1.ToString)] else []) }
            with ⟨t2, s4⟩
          have hms4 : meas s4 < meas s := by
            have hh : meas s4 ≤ meas s3 := by
              have h2 := GetToken_meas { s3 with out := s3.out ++
                (if vb then [OutLine.diag ("Token: " ++ (GetToken s).1.ToString)] else []) }
              rw [hr2] at h2
              exact h2
            omega
          by_cases hcp : (GetToken s).1.Precedence < t2.Precedence
          · obtain ⟨v5, s5, he2, hle5⟩ := ih s4 (by omega) vb rhs t2.Precedence k (by omega)
            obtain ⟨v6, s6, he3, hle6⟩ :=
              ih s5 (by omega) vb (.Expr lhs .Mult v5) prec k (by omega)
            simp only [ParseRhs, hsem, hp, he1, ht, hr2, hcp, he2, he3, if_false, if_true]
            exact ⟨_, _, rfl, le_trans hle6 (le_trans hle5 (le_of_lt hms4))⟩
          · obtain ⟨v6, s6, he3, hle6⟩ :=
              ih s4 (by omega) vb (.Expr lhs .Mult rhs) prec k (by omega)
            simp only [ParseRhs, hsem, hp, he1, ht, hr2, hcp, he3, if_false]
            exact ⟨_, _, rfl, le_trans hle6 (le_of_lt hms4)⟩
        | Divide =>
          have hlt3 : meas s3 < meas s := lt_of_le_of_lt hle3 (consume_meas s (by simp [ht]))
          rcases hr2 : GetToken { s3 with out := s3.out ++
              (if vb then [OutLine.diag ("Token: " ++ (GetToken s).1.ToString)] else []) }
            with ⟨t2, s4⟩
          have hms4 : meas s4 < meas s := by
            have hh : meas s4 ≤ meas s3 := by
              have h2 := GetToken_meas { s3 with out := s3.out ++
                (if vb then [OutLine.diag ("Token: " ++ (GetToken s).1.ToString)] else []) }
              rw [hr2] at h2
              exact h2
            omega
          by_cases hcp : (GetToken s).1.Precedence < t2.Precedence
          · obtain ⟨v5, s5, he2, hle5⟩ := ih s4 (by omega) vb rhs t2.Precedence k (by omega)
            obtain ⟨v6, s6, he3, hle6⟩ :=
              ih s5 (by omega) vb (.Expr lhs .Divide v5) prec k (by omega)
            simp only [ParseRhs, hsem, hp, he1, ht, hr2, hcp, he2, he3, if_false, if_true]
            exact ⟨_, _, rfl, le_trans hle6 (le_trans hle5 (le_of_lt hms4))⟩
          · obtain ⟨v6, s6, he3, hle6⟩ :=
              ih s4 (by omega) vb (.Expr lhs .Divide rhs) prec k (by omega)
            simp only [ParseRhs, hsem, hp, he1, ht, hr2, hcp, he3, if_false]
            exact ⟨_, _, rfl, le_trans hle6 (le_of_lt hms4)⟩
        | Equal =>
          have hlt3 : meas s3 < meas s := lt_of_le_of_lt hle3 (consume_meas s (by simp [ht]))
          simp only [ParseRhs, hsem, hp, he1, ht, if_false]
          exact hgen hlt3 lhs _ (NextToken_meas _)
        | Varname =>
          have hlt3 : meas s3 < meas s := lt_of_le_of_lt hle3 (consume_meas s (by simp [ht]))
          simp only [ParseRhs, hsem, hp, he1, ht, if_false]
          exact hgen hlt3 lhs _ (NextToken_meas _)
        | Number =>
          have hlt3 : meas s3 < meas s := lt_of_le_of_lt hle3 (consume_meas s (by simp [ht]))
          simp only [ParseRhs, hsem, hp, he1, ht, if_false]
          exact hgen hlt3 lhs _ (NextToken_meas _)
        | LParen =>
          have hlt3 : meas s3 < meas s := lt_of_le_of_lt hle3 (consume_meas s (by simp [ht]))
          simp only [ParseRhs, hsem, hp, he1, ht, if_false]
          exact hgen hlt3 lhs _ (NextToken_meas _)
        | RParen =>
          have hlt3 : meas s3 < meas s := lt_of_le_of_lt hle3 (consume_meas s (by simp [ht]))
          simp only [ParseRhs, hsem, hp, he1, ht, if_false]
          exact hgen hlt3 lhs _ (NextToken_meas _)
        | Undefined =>
          have hlt3 : meas s3 < meas s := lt_of_le_of_lt hle3 (consume_meas s (by simp [ht]))
          simp only [ParseRhs, hsem, hp, he1, ht, if_false]
          exact hgen hlt3 lhs _ (NextToken_meas _)

theorem Expect_snd (ty : TokenType) (s : St) :
    (Expect ty s).2.1 = (GetToken s).1 := by
  simp only [Expect]
  split
  · rfl
  · rfl

theorem Expect_meas (ty : TokenType) (s : St) :
    meas (Expect ty s).2.2 ≤ meas s := by
  simp only [Expect]
  split
  · exact le_trans (NextToken_meas (GetToken s).2) (GetToken_meas s)
  · exact le_trans (NextToken_meas (GetToken s).2) (GetToken_meas s)

theorem Expect_meas_lt (ty : TokenType) (s : St)
    (h : (GetToken s).1.type ≠ .EndOfFile) :
    meas (Expect ty s).2.2 < meas s := by
  have hc := consume_meas s h
  simp only [Expect]
  split
  · exact hc
  · exact hc

theorem ParseExpr_total (vb : Bool) (s : St) (n : Nat) (hn : meas s + 2 ≤ n) :
    ∃ v s2, ParseExpr vb n s = some (v, s2) ∧ meas s2 ≤ meas s := by
  obtain ⟨v1, s1, he1, hle1⟩ := ParseSimpleExpr_total (meas s) s le_rfl n (by omega)
  by_cases hsem : (GetToken s1).1.type = .SemiColon
  · simp only [ParseExpr, he1, hsem, eq_self_iff_true, if_true]
    exact ⟨_, _, rfl, le_trans (GetToken_meas s1) hle1⟩
  · have hms : meas (GetToken s1).2 ≤ meas s := le_trans (GetToken_meas s1) hle1
    obtain ⟨v2, s2, he2, hle2⟩ :=
      ParseRhs_total (meas (GetToken s1).2) _ le_rfl vb v1 0 n (by omega)
    simp only [ParseExpr, he1, hsem, if_false]
    exact ⟨_, _, he2, le_trans hle2 hms⟩

theorem Parse_total :
    ∀ (m : Nat) (s : St), meas s ≤ m → ∀ (vb : Bool) (n : Nat), meas s + 3 ≤ n →
      ∃ s2, Parse vb n s = some s2 := by
  intro m
  induction m with
  | zero =>
    intro s hs vb n hn
    have := meas_pos s
    exact absurd hs (by omega)
  | succ m ih =>
    intro s hs vb n hn
    have hpos := meas_pos s
    obtain ⟨k, rfl⟩ : ∃ k, n = k + 1 := ⟨n - 1, by omega⟩
    simp only [Parse]
    set r1 := Expect TokenType.Varname s with hr1
    set s1v : St := { r1.2.2 with
      out := r1.2.2.out ++ (if vb then [OutLine.diag r1.2.1.ToString] else []) } with hs1v
    set r2 := Expect TokenType.Equal s1v with hr2
    have hm1 : meas r1.2.2 ≤ meas s := by
      rw [hr1]
      exact Expect_meas _ _
    have hm2 : meas s1v = meas r1.2.2 := rfl
    have hm3 : meas r2.2.2 ≤ meas s1v := by
      rw [hr2]
      exact Expect_meas _ _
    by_cases hok : r1.1 = true
    · by_cases hok2 : r2.1 = true
      · obtain ⟨val, s3, he, hle⟩ := ParseExpr_total vb r2.2.2 k (by omega)
        by_cases hv : r1.2.1.type = .EndOfFile
        · simp only [hok, hok2, he, hv, eq_self_iff_true, if_true]
          exact ⟨_, rfl⟩
        · have hv' : (GetToken s).1.type ≠ .EndOfFile := by
            rw [hr1] at hv
            rw [Expect_snd] at hv
            exact hv
          have hlt : meas r1.2.2 < meas s := by
            rw [hr1]
            exact Expect_meas_lt _ _ hv'
          have hns3 : meas (NextToken s3) ≤ meas r2.2.2 :=
            le_trans (NextToken_meas _) hle
          simp only [hok, hok2, he, hv, if_true, if_false]
          refine ih _ ?_ vb k ?_
          · exact le_trans hns3 (by omega : meas r2.2.2 ≤ m)
          · exact le_trans (Nat.add_le_add_right hns3 3) (by omega : meas r2.2.2 + 3 ≤ k)
      · by_cases hv : r1.2.1.type = .EndOfFile
        · simp only [hok, hok2, hv, eq_self_iff_true, if_true, if_false]
          exact ⟨_, rfl⟩
        · have hv' : (GetToken s).1.type ≠ .EndOfFile := by
            rw [hr1] at hv
            rw [Expect_snd] at hv
            exact hv
          have hlt : meas r1.2.2 < meas s := by
            rw [hr1]
            exact Expect_meas_lt _ _ hv'
          simp only [hok, hok2, hv, if_true, if_false]
          refine ih _ ?_ vb k ?_
          · omega
          · omega
    · by_cases hv : r1.2.1.type = .EndOfFile
      · simp only [hok, hv, eq_self_iff_true, if_true, if_false]
        exact ⟨_, rfl⟩
      · have hv' : (GetToken s).1.type ≠ .EndOfFile := by
          rw [hr1] at hv
          rw [Expect_snd] at hv
          exact hv
        have hlt : meas r1.2.2 < meas s := by
          rw [hr1]
          exact Expect_meas_lt _ _ hv'
        simp only [hok, hv, if_true, if_false]
        refine ih _ ?_ vb k ?_
        · omega
        · omega

/-! ## Claim C10 -/

/-- C10: `Expect` unconditionally advances the cursor (first conjunct), and
the statement driver terminates on any finite input stream: fuel linear in
the input length (2·length + 4 statement steps, each parser function
spending fuel only on passes that consume) always suffices for `Parse` to
return a final state rather than running forever — the infinite-loop risk on
persistently malformed input does not materialize, because every pass
through a parsing loop either returns or consumes at least one token. -/
theorem C10_termination :
    (∀ (ty : TokenType) (s : St), ((Expect ty s).2.2).cur = none) ∧
    ∀ (vb : Bool) (input : List Char),
      ∃ st, Parse vb (2 * input.length + 4) (initSt input) = some st := by
  constructor
  · intro ty s
    simp only [Expect]
    split
    · rfl
    · rfl
  · intro vb input
    have hm : meas (initSt input) = 2 * input.length + 1 := rfl
    exact Parse_total (meas (initSt input)) (initSt input) le_rfl vb
      (2 * input.length + 4) (by omega)
